import Mathlib

/-!
Verification of the noise-suppression circuit transformers
(`circuit_transformers.py`): local 2-qubit gate folding (ZNE), Pauli-twirl
set generation and the Pauli-twirling pass, and the counts-aggregation
helper.

Modelling conventions, used throughout:

* Matrices are shallowly embedded over the exact ring ℤ[i, √2] (type `K`),
  since every matrix entry appearing in the Python code (Pauli matrices,
  CX, CZ, ECR and their products) lies in (1/2)·ℤ[i, √2].  To stay inside
  the integer ring, every 4×4 gate matrix is represented multiplied by 2
  (`gateMat2` is twice the unitary of `CXGate/CZGate/ECRGate.to_matrix`,
  `circuitOp2` twice the `Operator.from_circuit` matrix of the twirled
  sequence).  Equality of scaled matrices is equivalent to equality of the
  unscaled ones, and the squared Frobenius distances scale by 4: the
  Python thresholds `abs(norm) < 1e-15` and `abs(norm - 4) < 1e-15`
  become, exactly, `normSq = 0` and `normSq = 64` on scaled matrices.
  (In exact arithmetic the float tolerances are faithful: over the 256
  Pauli quadruples the distance is exactly 0, 2·√2 or 4, so the
  1e-15-windows single out the exact values.)

* Angles (`phase`, `global_phase`) are represented in units of π as exact
  rationals/integers: the Python values `0` and `np.pi` become `0` and
  `1`, and `% (2*np.pi)` becomes reduction modulo `2` (`qmod2`).

* Qiskit's little-endian convention is used: the unitary of a two-qubit
  circuit applying `a` on qubit 1 and `b` on qubit 0 is `kron a b`.
-/

set_option maxRecDepth 2048
set_option maxHeartbeats 1000000

/-- Element of ℤ[i, √2], represented as `re0 + re2·√2 + (im0 + im2·√2)·i`.
This is the exact ring in which all (×2-scaled) matrix entries of the
generation search live. -/
structure K where
  re0 : ℤ
  re2 : ℤ
  im0 : ℤ
  im2 : ℤ
deriving DecidableEq

/-- Componentwise addition in ℤ[i, √2]. -/
def K.add : K → K → K
  | ⟨a, b, c, d⟩, ⟨e, f, g, h⟩ => ⟨a + e, b + f, c + g, d + h⟩

/-- Negation in ℤ[i, √2]. -/
def K.neg : K → K
  | ⟨a, b, c, d⟩ => ⟨-a, -b, -c, -d⟩

/-- Subtraction in ℤ[i, √2]. -/
def K.sub : K → K → K
  | ⟨a, b, c, d⟩, ⟨e, f, g, h⟩ => ⟨a - e, b - f, c - g, d - h⟩

/-- Multiplication in ℤ[i, √2], expanding
`(a + b√2 + (c + d√2)i)·(e + f√2 + (g + h√2)i)` with `√2·√2 = 2` and
`i·i = -1`. -/
def K.mul : K → K → K
  | ⟨a, b, c, d⟩, ⟨e, f, g, h⟩ =>
    ⟨a * e + 2 * b * f - c * g - 2 * d * h,
     a * f + b * e - c * h - d * g,
     a * g + c * e + 2 * (b * h + d * f),
     a * h + d * e + b * g + c * f⟩

/-- Complex conjugation in ℤ[i, √2]. -/
def K.conj : K → K
  | ⟨a, b, c, d⟩ => ⟨a, b, -c, -d⟩

/-- Embedding of the integers into ℤ[i, √2]. -/
def K.ofInt (n : ℤ) : K := ⟨n, 0, 0, 0⟩

instance : Zero K := ⟨K.ofInt 0⟩
instance : One K := ⟨K.ofInt 1⟩
instance : Add K := ⟨K.add⟩
instance : Mul K := ⟨K.mul⟩
instance : Neg K := ⟨K.neg⟩
instance : Sub K := ⟨K.sub⟩

/-- The imaginary unit `i` of ℤ[i, √2]. -/
def K.iu : K := ⟨0, 0, 1, 0⟩

/-- The constant √2 in ℤ[i, √2]. -/
def K.sqrt2 : K := ⟨0, 1, 0, 0⟩

/-- Type of 2×2 complex matrices, as functions. -/
abbrev M2 := Fin 2 → Fin 2 → K

/-- Type of 4×4 complex matrices, as functions. -/
abbrev M4 := Fin 4 → Fin 4 → K

/-- High bit of an index into a 4-dimensional two-qubit space. -/
def fhi : Fin 4 → Fin 2 := fun i => ⟨i.val / 2, by omega⟩

/-- Low bit of an index into a 4-dimensional two-qubit space. -/
def flo : Fin 4 → Fin 2 := fun i => ⟨i.val % 2, by omega⟩

/-- Kronecker product of 2×2 matrices (`np.kron` over the two qubit
factors; `kron a b` acts with `a` on qubit 1 and `b` on qubit 0, the
little-endian qiskit layout). -/
def kron (a b : M2) : M4 := fun i j => a (fhi i) (fhi j) * b (flo i) (flo j)

/-- Sum of a 4-indexed family in `K`. -/
def sum4 (f : Fin 4 → K) : K := f 0 + f 1 + f 2 + f 3

/-- Product of 4×4 matrices. -/
def mul4 (a b : M4) : M4 := fun i j => sum4 fun k => a i k * b k j

/-- Difference of 4×4 matrices (the `Operator.from_circuit(qc) - target_unitary`
of the Python search). -/
def sub4 (a b : M4) : M4 := fun i j => a i j - b i j

/-- Squared Frobenius norm of a 4×4 matrix: `np.linalg.norm(...)**2`,
computed exactly as `Σ |entry|²`.  Its value is real, so only the
`re0`/`re2` components are ever nonzero. -/
def normSq4 (a : M4) : K := sum4 fun i => sum4 fun j => a i j * (a i j).conj

/-- The single-qubit Pauli gates used by the search
(`IGate, ZGate, XGate, YGate`). -/
inductive Pauli
  | I
  | Z
  | X
  | Y
deriving DecidableEq

/-- The 2×2 unitaries of `IGate, ZGate, XGate, YGate` (`.to_matrix()`),
entries in ℤ[i]. -/
def pauliMat : Pauli → M2
  | .I => fun i j => if i = j then 1 else 0
  | .Z => fun i j => if i = j then (if i = 0 then 1 else K.ofInt (-1)) else 0
  | .X => fun i j => if i = j then 0 else 1
  | .Y => fun i j => if i = j then 0 else if i = 1 then K.iu else K.iu.neg

/-- The closed enumeration of supported two-qubit gates: the domain of the
dict `{"cx": CXGate(), "cz": CZGate(), "ecr": ECRGate()}`. -/
inductive G2
  | cx
  | cz
  | ecr
deriving DecidableEq, Fintype

/-- Twice the 4×4 unitary of the two-qubit gate (`CXGate/CZGate/ECRGate
.to_matrix()`, little-endian; control = qubit 0, target = qubit 1), the
`target_unitary` of the search.  The ×2 scaling turns ECR's `1/√2`
entries into `√2` and keeps all entries in ℤ[i, √2]. -/
def gateMat2 : G2 → M4
  | .cx => fun i j => match i, j with
    | 0, 0 => K.ofInt 2 | 1, 3 => K.ofInt 2 | 2, 2 => K.ofInt 2 | 3, 1 => K.ofInt 2
    | _, _ => 0
  | .cz => fun i j => if i = j then (if i = 3 then K.ofInt (-2) else K.ofInt 2) else 0
  | .ecr => fun i j =>
      K.sqrt2 * (match i, j with
        | 0, 1 => (1 : K) | 0, 3 => K.iu
        | 1, 0 => 1 | 1, 2 => K.iu.neg
        | 2, 1 => K.iu | 2, 3 => 1
        | 3, 0 => K.iu.neg | 3, 2 => 1
        | _, _ => 0)

/-- A quadruple of Pauli gates `(gates[0], gates[1], gates[2], gates[3])`:
pre-rotations for control and target, then post-rotations for control and
target. -/
abbrev Quad := Pauli × Pauli × Pauli × Pauli

/-- The list `operator_list = [I, Z, X, Y]`. -/
def operator_list : List Pauli := [.I, .Z, .X, .Y]

/-- All 256 quadruples, `product(operator_list, repeat=4)`, in
`itertools.product` order (last component varying fastest). -/
def quads : List Quad :=
  operator_list.flatMap fun a => operator_list.flatMap fun b =>
    operator_list.flatMap fun c => operator_list.map fun d => (a, b, c, d)

/-- Twice the unitary of the twirled candidate circuit
(`Operator.from_circuit(qc)` for `qc` = gates[0] on q0, gates[1] on q1,
the two-qubit gate, gates[2] on q0, gates[3] on q1): post-rotations times
gate times pre-rotations, in matrix order. -/
def circuitOp2 (g : G2) (q : Quad) : M4 :=
  let pre := kron (pauliMat q.2.1) (pauliMat q.1)
  let post := kron (pauliMat q.2.2.2) (pauliMat q.2.2.1)
  mul4 post (mul4 (gateMat2 g) pre)

/-- The phase classification of one quadruple, in units of π:
`abs(norm) < 1e-15 ⇒ phase = 0`, `abs(norm - 4) < 1e-15 ⇒ phase = π`,
otherwise `None` (the quadruple is rejected).  On ×2-scaled matrices the
exact conditions are `normSq = 0` and `normSq = 4² · 4 = 64`. -/
def twirlPhase (g : G2) (q : Quad) : Option ℤ :=
  let n := normSq4 (sub4 (circuitOp2 g q) (gateMat2 g))
  if n = 0 then some 0 else if n = K.ofInt 64 then some 1 else none

/-- Python `generate_pauli_twirling_sets(two_qubit_gate)`: fold over the 256
quadruples in product order, keep those classified with a phase, and
append `(gates, phase)` unless it is already present (the `if twirl_set
not in twirling_sets` dedup).  The Python `assert Operator.from_circuit(qc)
== target_unitary` after the phase shift is a runtime re-check; theorem
`c1_twirl_entries_reproduce_gate` proves that it never fires.  The loop
body is the named `twirlStep`. -/
def twirlStep (g : G2) (acc : List (Quad × ℤ)) (q : Quad) : List (Quad × ℤ) :=
  match twirlPhase g q with
  | none => acc
  | some p => if (q, p) ∈ acc then acc else acc ++ [(q, p)]

/-- Python `generate_pauli_twirling_sets(two_qubit_gate)`: the fold of
`twirlStep` over all 256 quadruples. -/
def generate_pauli_twirling_sets (g : G2) : List (Quad × ℤ) :=
  quads.foldl (twirlStep g) []

/-- The factor `e^{i·phase}` for a stored phase in units of π: `1` for phase 0 and
`-1` for phase π. -/
def phaseFactor (p : ℤ) : K := if p = 0 then 1 else K.ofInt (-1)

/-- The computed Twirling Set of CX, verified against the generator in
`generate_eval_cx`. -/
def litCx : List (Quad × ℤ) :=
  [((.I, .I, .I, .I), 0), ((.I, .Z, .Z, .Z), 0),
   ((.I, .X, .I, .X), 0), ((.I, .Y, .Z, .Y), 0),
   ((.Z, .I, .Z, .I), 0), ((.Z, .Z, .I, .Z), 0),
   ((.Z, .X, .Z, .X), 0), ((.Z, .Y, .I, .Y), 0),
   ((.X, .I, .X, .X), 0), ((.X, .Z, .Y, .Y), 1),
   ((.X, .X, .X, .I), 0), ((.X, .Y, .Y, .Z), 0),
   ((.Y, .I, .Y, .X), 0), ((.Y, .Z, .X, .Y), 0),
   ((.Y, .X, .Y, .I), 0), ((.Y, .Y, .X, .Z), 1)]
/-- The computed Twirling Set of CZ, verified against the generator in
`generate_eval_cz`. -/
def litCz : List (Quad × ℤ) :=
  [((.I, .I, .I, .I), 0), ((.I, .Z, .I, .Z), 0),
   ((.I, .X, .Z, .X), 0), ((.I, .Y, .Z, .Y), 0),
   ((.Z, .I, .Z, .I), 0), ((.Z, .Z, .Z, .Z), 0),
   ((.Z, .X, .I, .X), 0), ((.Z, .Y, .I, .Y), 0),
   ((.X, .I, .X, .Z), 0), ((.X, .Z, .X, .I), 0),
   ((.X, .X, .Y, .Y), 0), ((.X, .Y, .Y, .X), 1),
   ((.Y, .I, .Y, .Z), 0), ((.Y, .Z, .Y, .I), 0),
   ((.Y, .X, .X, .Y), 1), ((.Y, .Y, .X, .X), 0)]
/-- The computed Twirling Set of ECR, verified against the generator in
`generate_eval_ecr`. -/
def litEcr : List (Quad × ℤ) :=
  [((.I, .I, .I, .I), 0), ((.I, .Z, .Z, .Y), 0),
   ((.I, .X, .I, .X), 0), ((.I, .Y, .Z, .Z), 1),
   ((.Z, .I, .Z, .I), 1), ((.Z, .Z, .I, .Y), 1),
   ((.Z, .X, .Z, .X), 1), ((.Z, .Y, .I, .Z), 0),
   ((.X, .I, .Y, .X), 1), ((.X, .Z, .X, .Z), 0),
   ((.X, .X, .Y, .I), 1), ((.X, .Y, .X, .Y), 0),
   ((.Y, .I, .X, .X), 1), ((.Y, .Z, .Y, .Z), 1),
   ((.Y, .X, .X, .I), 1), ((.Y, .Y, .Y, .Y), 1)]
/-- Splitting a fold over the quadruple list at position `n`, to keep
each kernel evaluation shallow. -/
theorem foldl_chunk (g : G2) (a b : List (Quad × ℤ)) (l : List Quad) (n : ℕ)
    (h : List.foldl (twirlStep g) a (l.take n) = b) :
    List.foldl (twirlStep g) a l = List.foldl (twirlStep g) b (l.drop n) := by
  conv_lhs => rw [← List.take_append_drop n l]
  rw [List.foldl_append, h]

theorem generate_eval_cx : generate_pauli_twirling_sets G2.cx = litCx := by
  have h1 : List.foldl (twirlStep G2.cx) [] (quads.take 64) = litCx.take 4 := by decide!
  have h2 : List.foldl (twirlStep G2.cx) (litCx.take 4) ((quads.drop 64).take 64) =
      litCx.take 8 := by decide!
  have h3 : List.foldl (twirlStep G2.cx) (litCx.take 8) ((quads.drop 128).take 64) =
      litCx.take 12 := by decide!
  have h4 : List.foldl (twirlStep G2.cx) (litCx.take 12) (quads.drop 192) = litCx := by
    decide!
  rw [generate_pauli_twirling_sets, foldl_chunk _ _ _ _ 64 h1,
    foldl_chunk _ _ _ _ 64 h2, List.drop_drop]
  norm_num
  rw [foldl_chunk _ _ _ _ 64 h3, List.drop_drop]
  norm_num
  exact h4

theorem generate_eval_cz : generate_pauli_twirling_sets G2.cz = litCz := by
  have h1 : List.foldl (twirlStep G2.cz) [] (quads.take 64) = litCz.take 4 := by decide!
  have h2 : List.foldl (twirlStep G2.cz) (litCz.take 4) ((quads.drop 64).take 64) =
      litCz.take 8 := by decide!
  have h3 : List.foldl (twirlStep G2.cz) (litCz.take 8) ((quads.drop 128).take 64) =
      litCz.take 12 := by decide!
  have h4 : List.foldl (twirlStep G2.cz) (litCz.take 12) (quads.drop 192) = litCz := by
    decide!
  rw [generate_pauli_twirling_sets, foldl_chunk _ _ _ _ 64 h1,
    foldl_chunk _ _ _ _ 64 h2, List.drop_drop]
  norm_num
  rw [foldl_chunk _ _ _ _ 64 h3, List.drop_drop]
  norm_num
  exact h4

theorem generate_eval_ecr : generate_pauli_twirling_sets G2.ecr = litEcr := by
  have h1 : List.foldl (twirlStep G2.ecr) [] (quads.take 64) = litEcr.take 4 := by decide!
  have h2 : List.foldl (twirlStep G2.ecr) (litEcr.take 4) ((quads.drop 64).take 64) =
      litEcr.take 8 := by decide!
  have h3 : List.foldl (twirlStep G2.ecr) (litEcr.take 8) ((quads.drop 128).take 64) =
      litEcr.take 12 := by decide!
  have h4 : List.foldl (twirlStep G2.ecr) (litEcr.take 12) (quads.drop 192) = litEcr := by
    decide!
  rw [generate_pauli_twirling_sets, foldl_chunk _ _ _ _ 64 h1,
    foldl_chunk _ _ _ _ 64 h2, List.drop_drop]
  norm_num
  rw [foldl_chunk _ _ _ _ 64 h3, List.drop_drop]
  norm_num
  exact h4

/-- The Twirling Set has exactly 16 entries, for each supported gate. -/
theorem generate_length : ∀ g : G2, (generate_pauli_twirling_sets g).length = 16 := by
  intro g
  cases g
  · rw [generate_eval_cx]; rfl
  · rw [generate_eval_cz]; rfl
  · rw [generate_eval_ecr]; rfl

/-- C1: for every supported two-qubit gate `g` and every entry
`(quadruple, phase)` of the generated Twirling Set, the phase is 0 or π
(stored in units of π as 0 or 1), and the matrix of the 5-gate sequence
(pre-rotations, `g`, post-rotations) multiplied by `e^{i·phase}` equals
`g`'s matrix — exactly, in the exact arithmetic that the float tolerance
1e-15 resolves. -/
theorem c1_twirl_entries_reproduce_gate :
    ∀ g : G2, ∀ e : Quad × ℤ, e ∈ generate_pauli_twirling_sets g →
      (e.2 = 0 ∨ e.2 = 1) ∧
      ∀ i j, phaseFactor e.2 * circuitOp2 g e.1 i j = gateMat2 g i j := by
  intro g
  cases g
  · rw [generate_eval_cx]; decide!
  · rw [generate_eval_cz]; decide!
  · rw [generate_eval_ecr]; decide!

/-- Witness for C1 at the concrete entry `((I,I,I,I), 0)` of the CX set. -/
theorem c1_twirl_entries_reproduce_gate_witness :
    (((Pauli.I, Pauli.I, Pauli.I, Pauli.I), (0 : ℤ)) ∈
        generate_pauli_twirling_sets G2.cx) ∧
      (((0 : ℤ) = 0 ∨ (0 : ℤ) = 1) ∧
        ∀ i j, phaseFactor 0 * circuitOp2 G2.cx (Pauli.I, Pauli.I, Pauli.I, Pauli.I) i j =
          gateMat2 G2.cx i j) := by
  have hm : ((Pauli.I, Pauli.I, Pauli.I, Pauli.I), (0 : ℤ)) ∈
      generate_pauli_twirling_sets G2.cx := by
    rw [generate_eval_cx]
    decide!
  exact ⟨hm, c1_twirl_entries_reproduce_gate G2.cx _ hm⟩

/-- C2: the Twirling Set has exactly 16 entries for CX and for CZ, and is
non-empty for ECR. -/
theorem c2_twirl_set_sizes :
    (generate_pauli_twirling_sets G2.cx).length = 16 ∧
    (generate_pauli_twirling_sets G2.cz).length = 16 ∧
    generate_pauli_twirling_sets G2.ecr ≠ [] := by
  refine ⟨generate_length _, generate_length _, ?_⟩
  have h := generate_length G2.ecr
  intro hnil
  rw [hnil] at h
  simp at h

/-- The qiskit string name of a supported two-qubit gate (the key of the
gate dict, and the op name matched by `collect_runs`). -/
def g2name : G2 → String
  | .cx => "cx"
  | .cz => "cz"
  | .ecr => "ecr"

/-- The qiskit op names of the Pauli gates (`IGate().name` is `id`). -/
def pauliName : Pauli → String
  | .I => "id"
  | .Z => "z"
  | .X => "x"
  | .Y => "y"

/-- One gate application in the circuit graph: an op name and the qubit
indices it acts on (a `DAGOpNode`, keeping the data the passes use). -/
structure GateNode where
  name : String
  qargs : List ℕ
deriving DecidableEq

/-- The circuit graph (`qiskit.dagcircuit.DAGCircuit`), modelled as the
per-qubit-wire-ordered list of its op nodes plus the mutable global
phase.  The phase is kept in units of π (so `2` stands for `2π`). -/
structure DAGCircuit where
  nodes : List GateNode
  global_phase : ℚ
deriving DecidableEq

/-- Reduction of an angle (in units of π) modulo 2π: qiskit's
`global_phase` setter stores `angle % (2*np.pi)`. -/
def qmod2 (x : ℚ) : ℚ := x - 2 * ⌊x / 2⌋

/-- The number of occurrences of op `name` in a node list: the value
`dag.count_ops()[name]` when positive. -/
def countOccs (name : String) : List GateNode → ℕ
  | [] => 0
  | node :: rest => (if node.name = name then 1 else 0) + countOccs name rest

/-- Lookup `dag.count_ops()[name]` as a total count (the KeyError on absent keys
is modelled at the use site, `Local2qFolding.run`). -/
def countOps (dag : DAGCircuit) (name : String) : ℕ := countOccs name dag.nodes

/-- Modelled from the spec: the "RNG Stream: seeded, stateful,
deterministic generator of uniform integers over [0, N); mutated in place
by every draw."  `np.random.default_rng(seed)` (NumPy's PCG64) is
external to this repository, so the stream is modelled as a 64-bit LCG
keyed by the seed; all the passes use is determinism-from-seed and
uniform draws over `[lo, hi)`. -/
structure RngState where
  state : ℕ
deriving DecidableEq

/-- Modelled from the spec: one step of the seeded deterministic stream. -/
def rngStep (s : ℕ) : ℕ := (6364136223846793005 * s + 1442695040888963407) % 2 ^ 64

/-- Modelled from the spec: `np.random.default_rng(seed)`. -/
def default_rng (seed : ℕ) : RngState := ⟨seed % 2 ^ 64⟩

/-- Modelled from the spec: `rng.integers(lo, hi)`, a uniform draw in
`[lo, hi)`, advancing the stream state. -/
def RngState.integers (r : RngState) (lo hi : ℕ) : ℕ × RngState :=
  (lo + rngStep r.state % (hi - lo), ⟨rngStep r.state⟩)

/-- The `PauliTwirling(TransformationPass)` instance state: the target
gate, the Twirling Set computed at construction, its recorded length, and
the RNG stream (mutated by each pass run, so `run` returns its final
state explicitly). -/
structure PauliTwirling where
  twirling_gate : G2
  twirling_set : List (Quad × ℤ)
  twirling_len : ℕ
  rng : RngState

/-- Constructor `PauliTwirling.__init__(twirling_gate, seed)`: builds the twirling
set via `generate_pauli_twirling_sets`, records its length, and seeds the
NumPy RNG.  (The unseeded `seed=None` case draws OS entropy and is not
modelled.) -/
def PauliTwirling.init (g : G2) (seed : ℕ) : PauliTwirling :=
  ⟨g, generate_pauli_twirling_sets g, (generate_pauli_twirling_sets g).length,
   default_rng seed⟩

/-- The default entry for an (unreachable) out-of-range twirling-set
index. -/
def dfltEntry : Quad × ℤ := ((.I, .I, .I, .I), 0)

/-- The 5-node replacement sequence spliced in for one twirled node:
entry gate 0 on the control, entry gate 1 on the target, the original
node, entry gate 2 on the control, entry gate 3 on the target (the
`twirl_dag` built in `PauliTwirling.run`, with `qreg[0]` bound to the
node's first qubit and `qreg[1]` to its second). -/
def twirlNodes (q : Quad) (node : GateNode) : List GateNode :=
  [⟨pauliName q.1, [node.qargs.getD 0 0]⟩,
   ⟨pauliName q.2.1, [node.qargs.getD 1 0]⟩,
   node,
   ⟨pauliName q.2.2.1, [node.qargs.getD 0 0]⟩,
   ⟨pauliName q.2.2.2, [node.qargs.getD 1 0]⟩]

/-- The loop body of `PauliTwirling.run`: qiskit's
`for run in dag.collect_runs([gate]): for node in run` visits exactly the
nodes named `twirling_gate`, in wire order, so the in-place
`substitute_node_with_dag` loop is modelled as one left-to-right
traversal.  For each matching node a fresh index is drawn with
`rng.integers(0, twirling_len)`, the corresponding entry's 5-node
sequence replaces the node, and the entry phase is added to the global
phase (wrapped modulo 2π by the qiskit phase setter). -/
def PauliTwirling.runAux (pt : PauliTwirling) :
    List GateNode → ℚ → RngState → List GateNode × ℚ × RngState
  | [], ph, rng => ([], ph, rng)
  | node :: rest, ph, rng =>
    if node.name = g2name pt.twirling_gate then
      let idx := (rng.integers 0 pt.twirling_len).1
      let entry := pt.twirling_set.getD idx dfltEntry
      let r := pt.runAux rest (qmod2 (ph + (entry.2 : ℚ))) (rng.integers 0 pt.twirling_len).2
      (twirlNodes entry.1 node ++ r.1, r.2)
    else
      let r := pt.runAux rest ph rng
      (node :: r.1, r.2)

/-- Method `PauliTwirling.run(dag)`: the mutated DAG, plus the RNG stream's
final state (mutated in place in the Python object). -/
def PauliTwirling.run (pt : PauliTwirling) (dag : DAGCircuit) : DAGCircuit × RngState :=
  (⟨(pt.runAux dag.nodes dag.global_phase pt.rng).1,
    (pt.runAux dag.nodes dag.global_phase pt.rng).2.1⟩,
   (pt.runAux dag.nodes dag.global_phase pt.rng).2.2)

/-- The substitution trace of one `PauliTwirling.run`: the sequence of
(drawn index, selected Equivalence Entry) pairs, in encounter order. -/
def PauliTwirling.traceAux (pt : PauliTwirling) :
    List GateNode → RngState → List (ℕ × (Quad × ℤ)) × RngState
  | [], rng => ([], rng)
  | node :: rest, rng =>
    if node.name = g2name pt.twirling_gate then
      let idx := (rng.integers 0 pt.twirling_len).1
      let r := pt.traceAux rest (rng.integers 0 pt.twirling_len).2
      ((idx, pt.twirling_set.getD idx dfltEntry) :: r.1, r.2)
    else
      pt.traceAux rest rng

/-- The sequence of `count` successive draws `rng.integers(0, n)` from a
stream, with the final stream state. -/
def drawSeq (rng : RngState) (n : ℕ) : ℕ → List ℕ × RngState
  | 0 => ([], rng)
  | count + 1 =>
    ((rng.integers 0 n).1 :: (drawSeq (rng.integers 0 n).2 n count).1,
     (drawSeq (rng.integers 0 n).2 n count).2)

/-- Written from the spec's per-pass description: "for every occurrence
of `twirling_gate` ... fetch the corresponding Equivalence Entry, and
replace the node with a 5-node sequence", consuming one drawn index per
occurrence in encounter order. -/
def specTwirlExpand (set : List (Quad × ℤ)) (gname : String) :
    List GateNode → List ℕ → List GateNode
  | [], _ => []
  | node :: rest, draws =>
    if node.name = gname then
      match draws with
      | [] => node :: specTwirlExpand set gname rest []
      | i :: ds => twirlNodes (set.getD i dfltEntry).1 node ++ specTwirlExpand set gname rest ds
    else
      node :: specTwirlExpand set gname rest draws

/-- Written from the spec's phase description: "add `entry.phase` into
the graph's global phase accumulator (modulo 2π)", once per drawn
index. -/
def specTwirlPhase (set : List (Quad × ℤ)) (ph : ℚ) (draws : List ℕ) : ℚ :=
  draws.foldl (fun a i => qmod2 (a + ((set.getD i dfltEntry).2 : ℚ))) ph

theorem integers_lt (r : RngState) (n : ℕ) (h : 0 < n) : (r.integers 0 n).1 < n := by
  simpa [RngState.integers] using Nat.mod_lt _ h

theorem drawSeq_lt (n : ℕ) (h : 0 < n) :
    ∀ (count : ℕ) (rng : RngState), ∀ i ∈ (drawSeq rng n count).1, i < n := by
  intro count
  induction count with
  | zero => intro rng i hi; simp [drawSeq] at hi
  | succ k ih =>
    intro rng i hi
    simp only [drawSeq, List.mem_cons] at hi
    cases hi with
    | inl h1 => rw [h1]; exact integers_lt rng n h
    | inr h2 => exact ih _ i h2

theorem runAux_eq_spec (pt : PauliTwirling) :
    ∀ (nodes : List GateNode) (ph : ℚ) (rng : RngState),
      pt.runAux nodes ph rng =
        (specTwirlExpand pt.twirling_set (g2name pt.twirling_gate) nodes
           (drawSeq rng pt.twirling_len (countOccs (g2name pt.twirling_gate) nodes)).1,
         specTwirlPhase pt.twirling_set ph
           (drawSeq rng pt.twirling_len (countOccs (g2name pt.twirling_gate) nodes)).1,
         (drawSeq rng pt.twirling_len (countOccs (g2name pt.twirling_gate) nodes)).2) := by
  intro nodes
  induction nodes with
  | nil => intro ph rng; simp [PauliTwirling.runAux, specTwirlExpand, specTwirlPhase,
      countOccs, drawSeq]
  | cons node rest ih =>
    intro ph rng
    by_cases hname : node.name = g2name pt.twirling_gate
    · simp only [PauliTwirling.runAux, specTwirlExpand, countOccs, hname, if_pos,
        Nat.add_comm 1, drawSeq, specTwirlPhase, List.foldl_cons, ih]
    · simp only [PauliTwirling.runAux, specTwirlExpand, countOccs, hname, if_neg,
        Nat.add_comm 1, ih, if_false, Nat.zero_add]

/-- C3: for every gate, seed and input graph, the pass draws one index in
`[0, N)` per occurrence of the twirling gate (`N` = Twirling Set length)
from its RNG stream, in encounter order, and replaces each occurrence
with the 5-node sequence of the drawn entry while accumulating the
entry's phase into the global phase modulo 2π: `run` coincides with the
spec-side expansion `specTwirlExpand` / `specTwirlPhase` over the drawn
index sequence, and every drawn index is below `N`. -/
theorem c3_twirling_run_refines_spec :
    ∀ (g : G2) (seed : ℕ) (dag : DAGCircuit),
      (PauliTwirling.init g seed).run dag =
        (⟨specTwirlExpand (generate_pauli_twirling_sets g) (g2name g) dag.nodes
            (drawSeq (default_rng seed) (generate_pauli_twirling_sets g).length
              (countOps dag (g2name g))).1,
          specTwirlPhase (generate_pauli_twirling_sets g) dag.global_phase
            (drawSeq (default_rng seed) (generate_pauli_twirling_sets g).length
              (countOps dag (g2name g))).1⟩,
         (drawSeq (default_rng seed) (generate_pauli_twirling_sets g).length
           (countOps dag (g2name g))).2) ∧
      ∀ i ∈ (drawSeq (default_rng seed) (generate_pauli_twirling_sets g).length
          (countOps dag (g2name g))).1,
        i < (generate_pauli_twirling_sets g).length := by
  intro g seed dag
  constructor
  · have h := runAux_eq_spec (PauliTwirling.init g seed) dag.nodes dag.global_phase
      (default_rng seed)
    simp only [PauliTwirling.init] at h
    simp only [PauliTwirling.run, PauliTwirling.init, countOps, h]
  · intro i hi
    refine drawSeq_lt _ ?_ _ _ i hi
    rw [generate_length]
    norm_num

/-- C4: two Pauli-twirling transforms constructed with the same seed (and
gate), run on the same graph, produce the same output graph, the same
final RNG state, and the same substitution trace. -/
theorem c4_twirling_two_run_determinism :
    ∀ (g : G2) (seed : ℕ) (p1 p2 : PauliTwirling) (dag : DAGCircuit),
      p1 = PauliTwirling.init g seed → p2 = PauliTwirling.init g seed →
      p1.run dag = p2.run dag ∧
      p1.traceAux dag.nodes p1.rng = p2.traceAux dag.nodes p2.rng := by
  intro g seed p1 p2 dag h1 h2
  subst h1
  subst h2
  exact ⟨rfl, rfl⟩

/-- Witness for C4 at gate `cx`, seed 5, and a one-node graph. -/
theorem c4_twirling_two_run_determinism_witness :
    (PauliTwirling.init G2.cx 5 = PauliTwirling.init G2.cx 5) ∧
    ((PauliTwirling.init G2.cx 5).run ⟨[⟨"cx", [0, 1]⟩], 0⟩ =
        (PauliTwirling.init G2.cx 5).run ⟨[⟨"cx", [0, 1]⟩], 0⟩ ∧
      (PauliTwirling.init G2.cx 5).traceAux (⟨[⟨"cx", [0, 1]⟩], (0 : ℚ)⟩ : DAGCircuit).nodes
          (PauliTwirling.init G2.cx 5).rng =
        (PauliTwirling.init G2.cx 5).traceAux (⟨[⟨"cx", [0, 1]⟩], (0 : ℚ)⟩ : DAGCircuit).nodes
          (PauliTwirling.init G2.cx 5).rng) :=
  ⟨rfl, c4_twirling_two_run_determinism G2.cx 5 _ _ _ rfl rfl⟩

theorem runAux_no_matches (pt : PauliTwirling) :
    ∀ (nodes : List GateNode) (ph : ℚ) (rng : RngState),
      countOccs (g2name pt.twirling_gate) nodes = 0 →
      pt.runAux nodes ph rng = (nodes, ph, rng) := by
  intro nodes
  induction nodes with
  | nil => intro ph rng _; rfl
  | cons node rest ih =>
    intro ph rng h
    simp only [countOccs] at h
    have hname : ¬ node.name = g2name pt.twirling_gate := by
      intro hc
      rw [if_pos hc] at h
      omega
    have hrest : countOccs (g2name pt.twirling_gate) rest = 0 := by
      rw [if_neg hname] at h
      omega
    simp [PauliTwirling.runAux, hname, ih _ _ hrest]

/-- C10: on a graph with zero occurrences of the twirling gate,
`PauliTwirling.run` returns the graph unchanged — same nodes, same global
phase, and an untouched RNG stream (no draws). -/
theorem c10_twirling_zero_occurrences :
    ∀ (pt : PauliTwirling) (dag : DAGCircuit),
      countOps dag (g2name pt.twirling_gate) = 0 →
      pt.run dag = (dag, pt.rng) := by
  intro pt dag h
  simp [PauliTwirling.run, runAux_no_matches pt dag.nodes dag.global_phase pt.rng h]

/-- Witness for C10: a transform targeting `cx` on a graph holding only a
non-`cx` node. -/
theorem c10_twirling_zero_occurrences_witness :
    countOps ⟨[⟨"h", [0]⟩], 0⟩
        (g2name (⟨G2.cx, [], 0, ⟨0⟩⟩ : PauliTwirling).twirling_gate) = 0 ∧
      (⟨G2.cx, [], 0, ⟨0⟩⟩ : PauliTwirling).run ⟨[⟨"h", [0]⟩], 0⟩ =
        (⟨[⟨"h", [0]⟩], 0⟩, (⟨G2.cx, [], 0, ⟨0⟩⟩ : PauliTwirling).rng) := by
  have h : countOps ⟨[⟨"h", [0]⟩], 0⟩
      (g2name (⟨G2.cx, [], 0, ⟨0⟩⟩ : PauliTwirling).twirling_gate) = 0 := by decide!
  exact ⟨h, c10_twirling_zero_occurrences _ _ h⟩

/-- The `Local2qFolding(TransformationPass)` configuration:
`scale_factor` (the Python float, modelled as an exact rational) and the
folded gate's name. -/
structure Local2qFolding where
  scale_factor : ℚ
  folding_gate : String

/-- Helper `Local2qFolding._next_odd_if_not_odd(value)`:
`int(np.ceil(value) // 2 * 2 + 1)`, with `//` the float floor-division
(`Int.fdiv` on the integral value `⌈value⌉`). -/
def next_odd_if_not_odd (value : ℚ) : ℤ := Int.fdiv ⌈value⌉ 2 * 2 + 1

/-- The `num_2q_gates_to_be_folded` computed by
`Local2qFolding._get_2q_gate_indices_to_be_folded`:
`int(np.floor(num_2q_gates * (scale_factor - 1) / (odd_fold_factor - 1)))`
(the `Decimal(str(...))` round-trips are exact on the modelled rational
inputs, and `int∘np.floor` is the mathematical floor). -/
def num_2q_gates_to_be_folded (num_2q_gates : ℕ) (scale_factor : ℚ) (odd_fold_factor : ℤ) : ℤ :=
  ⌊(num_2q_gates : ℚ) * (scale_factor - 1) / ((odd_fold_factor : ℚ) - 1)⌋

/-- Modelled from the spec: draw `k` elements from a pool one at a time,
each uniformly among the remaining elements ("explicit partial shuffle
... rather than a library black box"). -/
def pick : List ℕ → ℕ → RngState → List ℕ × RngState
  | _, 0, rng => ([], rng)
  | pool, k + 1, rng =>
    (pool.getD (rng.integers 0 pool.length).1 0 ::
       (pick (pool.eraseIdx (rng.integers 0 pool.length).1) k (rng.integers 0 pool.length).2).1,
     (pick (pool.eraseIdx (rng.integers 0 pool.length).1) k (rng.integers 0 pool.length).2).2)

/-- Modelled from the spec: `np.random.choice(a=n, size=k, replace=False)`
— "Select `num_to_fold` distinct occurrence indices uniformly at random,
without replacement, from [0, `num_target_gates`)".  NumPy's global RNG
is external state; it is threaded explicitly as an `RngState`. -/
def choose_no_replace (rng : RngState) (n k : ℕ) : List ℕ × RngState :=
  pick (List.range n) k rng

/-- The folding loop of `Local2qFolding.run`: occurrences of
`folding_gate` are visited in encounter order (`collect_runs` grouping
flattened, as in `PauliTwirling.runAux`), numbered by `idx`, and each
occurrence is substituted by `odd_fold_factor` copies of itself when its
index was selected, else by one copy. -/
def foldExpandAux (gname : String) (sel : List ℕ) (off : ℕ) :
    List GateNode → ℕ → List GateNode
  | [], _ => []
  | node :: rest, idx =>
    if node.name = gname then
      List.replicate (if idx ∈ sel then off else 1) node ++
        foldExpandAux gname sel off rest (idx + 1)
    else
      node :: foldExpandAux gname sel off rest idx

/-- Method `Local2qFolding.run(dag)`: `scale_factor == 1` returns the dag
untouched; otherwise `dag.count_ops()[folding_gate]` is read (raising
`KeyError`, modelled as `none`, when the gate is absent), the odd fold
factor and the number of gates to fold are computed, that many distinct
occurrence indices are chosen, and the graph is rewritten.  The global
RNG state is threaded and returned. -/
def Local2qFolding.run (p : Local2qFolding) (dag : DAGCircuit) (rng : RngState) :
    Option (DAGCircuit × RngState) :=
  if p.scale_factor = 1 then some (dag, rng)
  else if countOps dag p.folding_gate = 0 then none
  else
    some (⟨foldExpandAux p.folding_gate
        (choose_no_replace rng (countOps dag p.folding_gate)
          (num_2q_gates_to_be_folded (countOps dag p.folding_gate) p.scale_factor
            (next_odd_if_not_odd p.scale_factor)).toNat).1
        (next_odd_if_not_odd p.scale_factor).toNat dag.nodes 0,
      dag.global_phase⟩,
      (choose_no_replace rng (countOps dag p.folding_gate)
        (num_2q_gates_to_be_folded (countOps dag p.folding_gate) p.scale_factor
          (next_odd_if_not_odd p.scale_factor)).toNat).2)

theorem pick_length :
    ∀ (k : ℕ) (pool : List ℕ) (rng : RngState), k ≤ pool.length →
      (pick pool k rng).1.length = k := by
  intro k
  induction k with
  | zero => intro pool rng _; rfl
  | succ m ih =>
    intro pool rng h
    have hpos : 0 < pool.length := by omega
    have hlt : (rng.integers 0 pool.length).1 < pool.length := integers_lt _ _ hpos
    have herase : (pool.eraseIdx (rng.integers 0 pool.length).1).length = pool.length - 1 :=
      List.length_eraseIdx_of_lt hlt
    simp only [pick, List.length_cons]
    rw [ih _ _ (by omega)]

theorem pick_mem :
    ∀ (k : ℕ) (pool : List ℕ) (rng : RngState) (x : ℕ), k ≤ pool.length →
      x ∈ (pick pool k rng).1 → x ∈ pool := by
  intro k
  induction k with
  | zero => intro pool rng x _ hx; simp [pick] at hx
  | succ m ih =>
    intro pool rng x hk hx
    have hpos : 0 < pool.length := by omega
    have hlt : (rng.integers 0 pool.length).1 < pool.length := integers_lt _ _ hpos
    simp only [pick, List.mem_cons] at hx
    rcases hx with rfl | hx
    · rw [List.getD_eq_getElem?_getD, List.getElem?_eq_getElem hlt]
      exact List.getElem_mem hlt
    · have herase : (pool.eraseIdx (rng.integers 0 pool.length).1).length = pool.length - 1 :=
        List.length_eraseIdx_of_lt hlt
      exact List.mem_of_mem_eraseIdx (ih _ _ _ (by omega) hx)

theorem getD_not_mem_eraseIdx {pool : List ℕ} (hnd : pool.Nodup) {i : ℕ}
    (hi : i < pool.length) : pool.getD i 0 ∉ pool.eraseIdx i := by
  intro hmem
  obtain ⟨j, hj, hje⟩ := List.getElem_of_mem hmem
  rw [List.getElem_eraseIdx] at hje
  rw [List.getD_eq_getElem?_getD, List.getElem?_eq_getElem hi] at hje
  split at hje
  · have : j = i := (List.Nodup.getElem_inj_iff hnd).mp hje
    omega
  · have : j + 1 = i := (List.Nodup.getElem_inj_iff hnd).mp hje
    rename_i hna
    omega

theorem pick_nodup :
    ∀ (k : ℕ) (pool : List ℕ) (rng : RngState), k ≤ pool.length → pool.Nodup →
      (pick pool k rng).1.Nodup := by
  intro k
  induction k with
  | zero => intro pool rng _ _; simp [pick]
  | succ m ih =>
    intro pool rng hk hnd
    have hpos : 0 < pool.length := by omega
    have hlt : (rng.integers 0 pool.length).1 < pool.length := integers_lt _ _ hpos
    have herase : (pool.eraseIdx (rng.integers 0 pool.length).1).length = pool.length - 1 :=
      List.length_eraseIdx_of_lt hlt
    have hnde : (pool.eraseIdx (rng.integers 0 pool.length).1).Nodup :=
      (List.eraseIdx_sublist pool _).nodup hnd
    simp only [pick, List.nodup_cons]
    refine ⟨?_, ih _ _ (by omega) hnde⟩
    intro hmem
    exact getD_not_mem_eraseIdx hnd hlt (pick_mem _ _ _ _ (by omega) hmem)

theorem next_odd_eq_ediv (sf : ℚ) :
    next_odd_if_not_odd sf = ⌈sf⌉ / 2 * 2 + 1 := by
  unfold next_odd_if_not_odd
  rw [Int.fdiv_eq_ediv _ (by norm_num)]

theorem ceil_two_le {sf : ℚ} (hsf : 1 < sf) : 2 ≤ ⌈sf⌉ := by
  have h1 : (1 : ℤ) < ⌈sf⌉ := Int.lt_ceil.mpr (by exact_mod_cast hsf)
  omega

theorem next_odd_props {sf : ℚ} (hsf : 1 < sf) :
    Odd (next_odd_if_not_odd sf) ∧
      ⌈sf⌉ ≤ next_odd_if_not_odd sf ∧
      (∀ m : ℤ, Odd m → ⌈sf⌉ ≤ m → next_odd_if_not_odd sf ≤ m) ∧
      next_odd_if_not_odd sf = 2 * ⌊(⌈sf⌉ : ℚ) / 2⌋ + 1 := by
  have hc := ceil_two_le hsf
  have he := next_odd_eq_ediv sf
  have hfl : ⌊(⌈sf⌉ : ℚ) / 2⌋ = ⌈sf⌉ / 2 := by
    have h2 : ((2 : ℕ) : ℚ) = (2 : ℚ) := by norm_num
    rw [← h2, Rat.floor_intCast_div_natCast]
    norm_num
  refine ⟨⟨⌈sf⌉ / 2, by omega⟩, by omega, ?_, by omega⟩
  intro m hm hcm
  rw [Int.odd_iff] at hm
  omega

theorem num_to_fold_nonneg {sf : ℚ} (N : ℕ) (hsf : 1 < sf) :
    0 ≤ num_2q_gates_to_be_folded N sf (next_odd_if_not_odd sf) := by
  have hprops := next_odd_props hsf
  have hc := ceil_two_le hsf
  have hoff : (3 : ℤ) ≤ next_odd_if_not_odd sf := by
    have h3 := hprops.1
    have h2 := hprops.2.1
    rw [Int.odd_iff] at h3
    omega
  have hden : (0 : ℚ) < (next_odd_if_not_odd sf : ℚ) - 1 := by
    have : ((3 : ℤ) : ℚ) ≤ ((next_odd_if_not_odd sf : ℤ) : ℚ) := by exact_mod_cast hoff
    push_cast at this ⊢
    linarith
  apply Int.floor_nonneg.mpr
  apply div_nonneg _ (le_of_lt hden)
  have : (0 : ℚ) ≤ (N : ℚ) := Nat.cast_nonneg N
  nlinarith

theorem num_to_fold_le {sf : ℚ} (N : ℕ) (hsf : 1 < sf) :
    num_2q_gates_to_be_folded N sf (next_odd_if_not_odd sf) ≤ N := by
  have hprops := next_odd_props hsf
  have hc := ceil_two_le hsf
  have hoff : (3 : ℤ) ≤ next_odd_if_not_odd sf := by
    have h3 := hprops.1
    have h2 := hprops.2.1
    rw [Int.odd_iff] at h3
    omega
  have hsfoff : sf ≤ (next_odd_if_not_odd sf : ℚ) := by
    calc sf ≤ (⌈sf⌉ : ℚ) := Int.le_ceil sf
    _ ≤ (next_odd_if_not_odd sf : ℚ) := by exact_mod_cast hprops.2.1
  have hden : (0 : ℚ) < (next_odd_if_not_odd sf : ℚ) - 1 := by
    have : ((3 : ℤ) : ℚ) ≤ ((next_odd_if_not_odd sf : ℤ) : ℚ) := by exact_mod_cast hoff
    push_cast at this ⊢
    linarith
  have hratio : (sf - 1) / ((next_odd_if_not_odd sf : ℚ) - 1) ≤ 1 :=
    (div_le_one hden).mpr (by linarith)
  have hx : (N : ℚ) * (sf - 1) / ((next_odd_if_not_odd sf : ℚ) - 1) ≤ (N : ℚ) := by
    rw [mul_div_assoc]
    calc (N : ℚ) * ((sf - 1) / ((next_odd_if_not_odd sf : ℚ) - 1))
        ≤ (N : ℚ) * 1 := by
          
          exact mul_le_mul_of_nonneg_left hratio (Nat.cast_nonneg N)
    _ = (N : ℚ) := mul_one _
  calc num_2q_gates_to_be_folded N sf (next_odd_if_not_odd sf)
      ≤ ⌊(N : ℚ)⌋ := Int.floor_le_floor hx
  _ = N := Int.floor_natCast N

/-- C5: for `scale_factor > 1` and `N > 0` occurrences, the folding pass
computes `odd_fold_factor` as the smallest odd integer at least
`⌈scale_factor⌉`, equal to `2·⌊⌈scale_factor⌉/2⌋ + 1`; computes
`num_to_fold = ⌊N·(scale_factor−1)/(odd_fold_factor−1)⌋` with
`0 ≤ num_to_fold ≤ N`; and selects exactly `num_to_fold` pairwise
distinct indices from `[0, N)`. -/
theorem c5_folding_fold_counts :
    ∀ (sf : ℚ) (N : ℕ) (rng : RngState), 1 < sf → 0 < N →
      (Odd (next_odd_if_not_odd sf) ∧
        ⌈sf⌉ ≤ next_odd_if_not_odd sf ∧
        (∀ m : ℤ, Odd m → ⌈sf⌉ ≤ m → next_odd_if_not_odd sf ≤ m) ∧
        next_odd_if_not_odd sf = 2 * ⌊(⌈sf⌉ : ℚ) / 2⌋ + 1) ∧
      num_2q_gates_to_be_folded N sf (next_odd_if_not_odd sf) =
        ⌊(N : ℚ) * (sf - 1) / ((next_odd_if_not_odd sf : ℚ) - 1)⌋ ∧
      0 ≤ num_2q_gates_to_be_folded N sf (next_odd_if_not_odd sf) ∧
      num_2q_gates_to_be_folded N sf (next_odd_if_not_odd sf) ≤ N ∧
      (choose_no_replace rng N
          (num_2q_gates_to_be_folded N sf (next_odd_if_not_odd sf)).toNat).1.length =
        (num_2q_gates_to_be_folded N sf (next_odd_if_not_odd sf)).toNat ∧
      (choose_no_replace rng N
          (num_2q_gates_to_be_folded N sf (next_odd_if_not_odd sf)).toNat).1.Nodup ∧
      ∀ x ∈ (choose_no_replace rng N
          (num_2q_gates_to_be_folded N sf (next_odd_if_not_odd sf)).toNat).1,
        x < N := by
  intro sf N rng hsf _
  have hle := num_to_fold_le N hsf
  have hkN : (num_2q_gates_to_be_folded N sf (next_odd_if_not_odd sf)).toNat ≤
      (List.range N).length := by
    rw [List.length_range]
    omega
  refine ⟨next_odd_props hsf, rfl, num_to_fold_nonneg N hsf, hle, ?_, ?_, ?_⟩
  · exact pick_length _ _ _ hkN
  · exact pick_nodup _ _ _ hkN (List.nodup_range N)
  · intro x hx
    have := pick_mem _ _ _ _ hkN hx
    simpa using List.mem_range.mp this

/-- Witness for C5 at `scale_factor = 2`, one occurrence, a fixed RNG
state: the selection is duplicate-free. -/
theorem c5_folding_fold_counts_witness :
    ((1 : ℚ) < 2 ∧ 0 < 1) ∧
      (choose_no_replace ⟨0⟩ 1
          (num_2q_gates_to_be_folded 1 2 (next_odd_if_not_odd 2)).toNat).1.Nodup := by
  have h := c5_folding_fold_counts 2 1 ⟨0⟩ (by norm_num) (by norm_num)
  exact ⟨⟨by norm_num, by norm_num⟩, h.2.2.2.2.2.1⟩

theorem choose_all_mem (rng : RngState) (N : ℕ) :
    ∀ j < N, j ∈ (choose_no_replace rng N N).1 := by
  intro j hj
  have hkN : N ≤ (List.range N).length := by rw [List.length_range]
  have hlen : (choose_no_replace rng N N).1.length = N := pick_length _ _ _ hkN
  have hnd : (choose_no_replace rng N N).1.Nodup :=
    pick_nodup _ _ _ hkN (List.nodup_range N)
  have hsub : (choose_no_replace rng N N).1 ⊆ List.range N := fun x hx =>
    pick_mem _ _ _ _ hkN hx
  have hperm : (choose_no_replace rng N N).1.Perm (List.range N) :=
    (List.subperm_of_subset hnd hsub).perm_of_length_le (by rw [hlen, List.length_range])
  exact hperm.mem_iff.mpr (List.mem_range.mpr hj)

theorem foldExpand_all_selected (gname : String) (off : ℕ) (sel : List ℕ) :
    ∀ (nodes : List GateNode) (idx : ℕ),
      (∀ j, idx ≤ j → j < idx + countOccs gname nodes → j ∈ sel) →
      foldExpandAux gname sel off nodes idx =
        nodes.flatMap fun nd => if nd.name = gname then List.replicate off nd else [nd] := by
  intro nodes
  induction nodes with
  | nil => intro idx _; rfl
  | cons node rest ih =>
    intro idx hsel
    by_cases hname : node.name = gname
    · have hidx : idx ∈ sel := by
        refine hsel idx le_rfl ?_
        simp only [countOccs, hname, if_pos]
        omega
      have hrest : ∀ j, idx + 1 ≤ j → j < idx + 1 + countOccs gname rest → j ∈ sel := by
        intro j h1 h2
        refine hsel j (by omega) ?_
        simp only [countOccs, hname, if_pos]
        omega
      simp [foldExpandAux, hname, hidx, ih _ hrest]
    · have hrest : ∀ j, idx ≤ j → j < idx + countOccs gname rest → j ∈ sel := by
        intro j h1 h2
        refine hsel j h1 ?_
        simp only [countOccs, hname, if_neg, if_false]
        omega
      simp [foldExpandAux, hname, ih _ hrest]

theorem flatMap_triple_length (gname : String) :
    ∀ nodes : List GateNode,
      (nodes.flatMap fun nd =>
        if nd.name = gname then List.replicate 3 nd else [nd]).length =
      nodes.length + 2 * countOccs gname nodes := by
  intro nodes
  induction nodes with
  | nil => rfl
  | cons node rest ih =>
    by_cases hname : node.name = gname
    · simp only [List.flatMap_cons, List.length_append, ih, List.length_cons, countOccs,
        if_pos hname, List.length_replicate]
      omega
    · simp only [List.flatMap_cons, List.length_append, ih, List.length_cons, countOccs,
        if_neg hname, List.length_singleton, List.length_nil]
      omega

/-- C6: running the folding transform with `scale_factor = 1` is a strict
no-op: the graph comes back unchanged (same nodes, same global phase) and
the RNG is untouched. -/
theorem c6_folding_scale1_noop :
    ∀ (gname : String) (dag : DAGCircuit) (rng : RngState),
      (⟨1, gname⟩ : Local2qFolding).run dag rng = some (dag, rng) := by
  intro gname dag rng
  simp [Local2qFolding.run]

/-- C7: for `scale_factor > 1` (and the folding gate present), the pass
replaces each occurrence, in encounter order, by `odd_fold_factor` copies
when its index was selected and one copy otherwise; for
`scale_factor = 3` on `N` occurrences, `odd_fold_factor = 3` and
`num_to_fold = N`, every occurrence becomes exactly 3 repetitions, and
exactly `2·N` nodes are added. -/
theorem c7_folding_scale3_triples :
    ∀ (sf : ℚ) (gname : String) (dag : DAGCircuit) (rng : RngState),
      1 < sf → 0 < countOps dag gname →
      ((⟨sf, gname⟩ : Local2qFolding).run dag rng =
          some (⟨foldExpandAux gname
              (choose_no_replace rng (countOps dag gname)
                (num_2q_gates_to_be_folded (countOps dag gname) sf
                  (next_odd_if_not_odd sf)).toNat).1
              (next_odd_if_not_odd sf).toNat dag.nodes 0,
            dag.global_phase⟩,
           (choose_no_replace rng (countOps dag gname)
              (num_2q_gates_to_be_folded (countOps dag gname) sf
                (next_odd_if_not_odd sf)).toNat).2)) ∧
      (sf = 3 →
        next_odd_if_not_odd sf = 3 ∧
        (num_2q_gates_to_be_folded (countOps dag gname) sf
            (next_odd_if_not_odd sf)).toNat = countOps dag gname ∧
        foldExpandAux gname
            (choose_no_replace rng (countOps dag gname)
              (num_2q_gates_to_be_folded (countOps dag gname) sf
                (next_odd_if_not_odd sf)).toNat).1
            (next_odd_if_not_odd sf).toNat dag.nodes 0 =
          dag.nodes.flatMap
            (fun nd => if nd.name = gname then List.replicate 3 nd else [nd]) ∧
        (foldExpandAux gname
            (choose_no_replace rng (countOps dag gname)
              (num_2q_gates_to_be_folded (countOps dag gname) sf
                (next_odd_if_not_odd sf)).toNat).1
            (next_odd_if_not_odd sf).toNat dag.nodes 0).length =
          dag.nodes.length + 2 * countOps dag gname) := by
  intro sf gname dag rng hsf hcnt
  have hne1 : ¬ sf = 1 := by intro hc; rw [hc] at hsf; exact lt_irrefl 1 hsf
  have hne0 : ¬ countOps dag gname = 0 := by omega
  constructor
  · simp [Local2qFolding.run, hne1, hne0]
  · intro h3
    subst h3
    have hoff : next_odd_if_not_odd 3 = 3 := by
      have hc3 : ⌈(3 : ℚ)⌉ = 3 := by
        have : ((3 : ℤ) : ℚ) = (3 : ℚ) := by norm_num
        rw [← this, Int.ceil_intCast]
      unfold next_odd_if_not_odd
      rw [hc3]
      decide
    have hk : (num_2q_gates_to_be_folded (countOps dag gname) 3
        (next_odd_if_not_odd 3)).toNat = countOps dag gname := by
      rw [hoff]
      unfold num_2q_gates_to_be_folded
      have hx : (countOps dag gname : ℚ) * (3 - 1) / (((3 : ℤ) : ℚ) - 1) =
          ((countOps dag gname : ℕ) : ℚ) := by
        push_cast
        ring
      rw [hx, Int.floor_natCast, Int.toNat_natCast]
    have hsel : ∀ j, 0 ≤ j → j < 0 + countOccs gname dag.nodes →
        j ∈ (choose_no_replace rng (countOps dag gname)
          (num_2q_gates_to_be_folded (countOps dag gname) 3
            (next_odd_if_not_odd 3)).toNat).1 := by
      intro j _ hj
      rw [hk]
      exact choose_all_mem rng (countOps dag gname) j (by simpa [countOps] using hj)
    have hexp := foldExpand_all_selected gname 3
      ((choose_no_replace rng (countOps dag gname)
        (num_2q_gates_to_be_folded (countOps dag gname) 3
          (next_odd_if_not_odd 3)).toNat).1) dag.nodes 0 hsel
    have hoff3 : (next_odd_if_not_odd 3).toNat = 3 := by rw [hoff]; rfl
    refine ⟨hoff, hk, ?_, ?_⟩
    · rw [hoff3]
      exact hexp
    · rw [hoff3, hexp, flatMap_triple_length]
      rfl

/-- Witness for C7 at `scale_factor = 3` on a one-`cx` graph. -/
theorem c7_folding_scale3_triples_witness :
    ((1 : ℚ) < 3 ∧ 0 < countOps ⟨[⟨"cx", [0, 1]⟩], 0⟩ (g2name G2.cx)) ∧
      next_odd_if_not_odd 3 = 3 := by
  have hc : 0 < countOps ⟨[⟨"cx", [0, 1]⟩], 0⟩ (g2name G2.cx) := by decide!
  have h := c7_folding_scale3_triples 3 (g2name G2.cx) ⟨[⟨"cx", [0, 1]⟩], 0⟩ ⟨0⟩
    (by norm_num) hc
  exact ⟨⟨by norm_num, hc⟩, (h.2 rfl).1⟩

/-- C8: when the folding gate has zero occurrences, running with
`scale_factor ≠ 1` fails (the `count_ops` lookup raises), while
`scale_factor = 1` returns the graph unmodified without performing the
lookup. -/
theorem c8_folding_absent_gate :
    ∀ (sf : ℚ) (gname : String) (dag : DAGCircuit) (rng : RngState),
      countOps dag gname = 0 →
      (sf ≠ 1 → (⟨sf, gname⟩ : Local2qFolding).run dag rng = none) ∧
      (⟨1, gname⟩ : Local2qFolding).run dag rng = some (dag, rng) := by
  intro sf gname dag rng h
  constructor
  · intro hne
    simp [Local2qFolding.run, hne, h]
  · simp [Local2qFolding.run]

/-- Witness for C8: a graph with a single non-`cx` node. -/
theorem c8_folding_absent_gate_witness :
    countOps ⟨[⟨"h", [0]⟩], 0⟩ (g2name G2.cx) = 0 ∧
      ((2 : ℚ) ≠ 1 →
        (⟨2, g2name G2.cx⟩ : Local2qFolding).run ⟨[⟨"h", [0]⟩], 0⟩ ⟨0⟩ = none) ∧
      (⟨1, g2name G2.cx⟩ : Local2qFolding).run ⟨[⟨"h", [0]⟩], 0⟩ ⟨0⟩ =
        some (⟨[⟨"h", [0]⟩], 0⟩, ⟨0⟩) := by
  have h : countOps ⟨[⟨"h", [0]⟩], 0⟩ (g2name G2.cx) = 0 := by decide!
  exact ⟨h, c8_folding_absent_gate 2 (g2name G2.cx) _ ⟨0⟩ h⟩

/-- Python dict lookup with default: `m.get(k, d)` (and `m[k]` at call
sites where `k` is known to be present), over a dict modelled as an
insertion-ordered association list with pairwise-distinct keys. -/
def dictGetD : List (String × ℚ) → String → ℚ → ℚ
  | [], _, d => d
  | kv :: rest, k, d => if kv.1 = k then kv.2 else dictGetD rest k d

/-- Python dict assignment `m[k] = v`: overwrite in place if the key
exists, else append (insertion order). -/
def dictSet : List (String × ℚ) → String → ℚ → List (String × ℚ)
  | [], k, v => [(k, v)]
  | kv :: rest, k, v => if kv.1 = k then (k, v) :: rest else kv :: dictSet rest k v

/-- Python `aggregate_data(data, normalize=False)`: fold all outcome-count
mappings into one, adding `dist[key]/total` per key of each `dist`,
where `total = len(data) if normalize else 1`. -/
def aggregate_data (data : List (List (String × ℚ))) (normalize : Bool) :
    List (String × ℚ) :=
  data.foldl (fun aggregated dist =>
    dist.foldl (fun agg kv =>
      dictSet agg kv.1 (dictGetD agg kv.1 0 +
        dictGetD dist kv.1 0 / (if normalize then (data.length : ℚ) else 1))) aggregated) []

theorem dictGetD_dictSet_same :
    ∀ (m : List (String × ℚ)) (k : String) (v : ℚ), dictGetD (dictSet m k v) k 0 = v := by
  intro m k v
  induction m with
  | nil => simp [dictSet, dictGetD]
  | cons kv rest ih =>
    by_cases h : kv.1 = k
    · simp [dictSet, dictGetD, h]
    · simp [dictSet, dictGetD, h, ih]

theorem dictGetD_dictSet_other :
    ∀ (m : List (String × ℚ)) (k : String) (v : ℚ) (k' : String) (d : ℚ), k' ≠ k →
      dictGetD (dictSet m k v) k' d = dictGetD m k' d := by
  intro m k v k' d hne
  induction m with
  | nil => simp [dictSet, dictGetD, Ne.symm hne]
  | cons kv rest ih =>
    by_cases h : kv.1 = k
    · have : ¬ (k = k') := fun hc => hne hc.symm
      simp [dictSet, dictGetD, h, this]
    · by_cases h2 : kv.1 = k'
      · simp [dictSet, dictGetD, h, h2, hne]
      · simp [dictSet, dictGetD, h, h2, ih]

theorem dictGetD_not_mem :
    ∀ (m : List (String × ℚ)) (k : String) (d : ℚ), k ∉ m.map Prod.fst →
      dictGetD m k d = d := by
  intro m k d hk
  induction m with
  | nil => rfl
  | cons kv rest ih =>
    simp only [List.map_cons, List.mem_cons] at hk
    push_neg at hk
    simp [dictGetD, Ne.symm hk.1, ih hk.2]

theorem inner_fold_getD (total : ℚ) (dist : List (String × ℚ)) (key : String) :
    ∀ (l : List (String × ℚ)) (agg : List (String × ℚ)), (l.map Prod.fst).Nodup →
      dictGetD (l.foldl (fun agg kv =>
          dictSet agg kv.1 (dictGetD agg kv.1 0 + dictGetD dist kv.1 0 / total)) agg)
        key 0 =
      dictGetD agg key 0 +
        (if key ∈ l.map Prod.fst then dictGetD dist key 0 / total else 0) := by
  intro l
  induction l with
  | nil => intro agg _; simp
  | cons kv rest ih =>
    intro agg hnd
    simp only [List.map_cons, List.nodup_cons] at hnd
    simp only [List.foldl_cons]
    rw [ih _ hnd.2]
    by_cases hk : key = kv.1
    · have hnotin : key ∉ rest.map Prod.fst := by rw [hk]; exact hnd.1
      rw [if_neg hnotin]
      subst hk
      rw [dictGetD_dictSet_same]
      simp [List.mem_cons]
    · rw [dictGetD_dictSet_other _ _ _ _ _ hk]
      have : (key ∈ kv.1 :: rest.map Prod.fst) ↔ (key ∈ rest.map Prod.fst) := by
        simp [List.mem_cons, hk]
      simp only [List.map_cons, this]

theorem inner_fold_getD_whole (total : ℚ) (dist : List (String × ℚ)) (key : String)
    (agg : List (String × ℚ)) (hnd : (dist.map Prod.fst).Nodup) :
    dictGetD (dist.foldl (fun agg kv =>
        dictSet agg kv.1 (dictGetD agg kv.1 0 + dictGetD dist kv.1 0 / total)) agg)
      key 0 =
    dictGetD agg key 0 + dictGetD dist key 0 / total := by
  rw [inner_fold_getD total dist key dist agg hnd]
  by_cases hk : key ∈ dist.map Prod.fst
  · rw [if_pos hk]
  · rw [if_neg hk, dictGetD_not_mem dist key 0 hk]
    simp

theorem outer_fold_getD (total : ℚ) (key : String) :
    ∀ (ds : List (List (String × ℚ))) (agg : List (String × ℚ)),
      (∀ d ∈ ds, (d.map Prod.fst).Nodup) →
      dictGetD (ds.foldl (fun aggregated dist =>
          dist.foldl (fun agg kv =>
            dictSet agg kv.1 (dictGetD agg kv.1 0 + dictGetD dist kv.1 0 / total))
            aggregated) agg) key 0 =
      dictGetD agg key 0 + (ds.map fun d => dictGetD d key 0 / total).sum := by
  intro ds
  induction ds with
  | nil => intro agg _; simp
  | cons d rest ih =>
    intro agg hnd
    simp only [List.foldl_cons]
    rw [ih _ fun x hx => hnd x (List.mem_cons_of_mem d hx)]
    rw [inner_fold_getD_whole total d key agg (hnd d (List.mem_cons_self d rest))]
    simp only [List.map_cons, List.sum_cons]
    ring

/-- C9: `aggregate_data` returns a mapping whose value at each key is
the sum over the input mappings of that mapping's value at the key
(zero when missing), each divided by the number of input mappings when
`normalize` is true; on `[{00:3, 01:1}, {00:1}]` it returns
`{00:4, 01:1}` un-normalized and `{00:2, 01:1/2}` normalized. -/
theorem c9_aggregate_data_sums :
    ∀ (data : List (List (String × ℚ))) (normalize : Bool) (key : String),
      (∀ d ∈ data, (d.map Prod.fst).Nodup) →
      (dictGetD (aggregate_data data normalize) key 0 =
        (data.map fun d =>
          dictGetD d key 0 / (if normalize then (data.length : ℚ) else 1)).sum) ∧
      aggregate_data [[("00", 3), ("01", 1)], [("00", 1)]] false =
        [("00", 4), ("01", 1)] ∧
      aggregate_data [[("00", 3), ("01", 1)], [("00", 1)]] true =
        [("00", 2), ("01", 1 / 2)] := by
  intro data normalize key hnd
  refine ⟨?_, by decide!, by decide!⟩
  unfold aggregate_data
  rw [outer_fold_getD _ key data [] hnd]
  simp [dictGetD]

/-- Witness for C9 at the two-mapping scenario and key `00`. -/
theorem c9_aggregate_data_sums_witness :
    (∀ d ∈ [[("00", (3 : ℚ)), ("01", 1)], [("00", 1)]], (d.map Prod.fst).Nodup) ∧
      dictGetD (aggregate_data [[("00", 3), ("01", 1)], [("00", 1)]] false) ("00") 0 =
        ([[("00", (3 : ℚ)), ("01", 1)], [("00", 1)]].map fun d =>
          dictGetD d ("00") 0 /
            (if false then (([[("00", (3 : ℚ)), ("01", 1)], [("00", 1)]].length : ℚ))
             else 1)).sum := by
  have hnd : ∀ d ∈ [[("00", (3 : ℚ)), ("01", 1)], [("00", 1)]],
      (d.map Prod.fst).Nodup := by decide!
  exact ⟨hnd, (c9_aggregate_data_sums _ false ("00") hnd).1⟩
